import Mathlib

/-
Verification of the 2048 auto-player core (auto-2048.py): board moves,
rotation, the positional heuristic, and the recursive lookahead search.
Tile values are natural numbers; Python floats are modelled as rationals;
Python code that can raise (max over an empty dict) is modelled in Option.
-/

namespace Auto2048

/-- A board is a list of rows of tile values; the program uses 4×4 boards. -/
abbrev Board := List (List Nat)

/-- Well-formedness: the 4×4 shape every board in the program has. -/
def WF (b : Board) : Prop := b.length = 4 ∧ ∀ row ∈ b, row.length = 4

instance (b : Board) : Decidable (WF b) := by unfold WF; infer_instance

/-- Cell access `board[r][c]`, defaulting to 0 out of range (the program only
reads in range on well-formed boards). -/
def getC (b : Board) (r c : ℕ) : ℕ := (b.getD r []).getD c 0

/-- Rational-valued cell access for the points matrix. -/
def getQ (b : List (List ℚ)) (r c : ℕ) : ℚ := (b.getD r []).getD c 0

/-- The merging loop of `move_row_left`: scan left to right, merging each
adjacent equal pair once; a merged tile is dropped from further scanning. -/
def merge_pass : List ℕ → List ℕ
  | [] => []
  | [x] => [x]
  | x :: y :: rest =>
    if x = y then x * 2 :: merge_pass rest else x :: merge_pass (y :: rest)

/-- `move_row_left`: drop zeros, run the merge pass (the source binds the
result to `merged`), pad with zeros to 4. -/
def move_row_left (row : List ℕ) : List ℕ :=
  merge_pass (row.filter (· ≠ 0)) ++
    List.replicate (4 - (merge_pass (row.filter (· ≠ 0))).length) 0

/-- `rotate_board_clockwise`, i.e. `zip(*board[::-1])`, written out on the
4×4 shape (identity on other shapes, which the program never builds). -/
def rotate_board_clockwise : Board → Board
  | [[a0, a1, a2, a3], [b0, b1, b2, b3], [c0, c1, c2, c3], [d0, d1, d2, d3]] =>
    [[d0, c0, b0, a0], [d1, c1, b1, a1], [d2, c2, b2, a2], [d3, c3, b3, a3]]
  | b => b

/-- `rotate_board_counterclockwise`, i.e. `zip(*board)` reversed. -/
def rotate_board_counterclockwise : Board → Board
  | [[a0, a1, a2, a3], [b0, b1, b2, b3], [c0, c1, c2, c3], [d0, d1, d2, d3]] =>
    [[a3, b3, c3, d3], [a2, b2, c2, d2], [a1, b1, c1, d1], [a0, b0, c0, d0]]
  | b => b

/-- `left(board)`: map `move_row_left` over the rows and report whether some
row changed. -/
def left (b : Board) : Board × Bool :=
  (b.map move_row_left, b.any fun row => decide (move_row_left row ≠ row))

/-- Reverse every row (`board[r][::-1]` for each r). -/
def reverseRows (b : Board) : Board := b.map List.reverse

/-- `right(board)`: reverse rows, move left, reverse back. -/
def right (b : Board) : Board × Bool :=
  let res := left (reverseRows b)
  (reverseRows res.1, res.2)

/-- `up(board)`: rotate counterclockwise, move left, rotate back clockwise. -/
def up (b : Board) : Board × Bool :=
  let res := left (rotate_board_counterclockwise b)
  (rotate_board_clockwise res.1, res.2)

/-- `down(board)`: rotate clockwise, move left, rotate back counterclockwise. -/
def down (b : Board) : Board × Bool :=
  let res := left (rotate_board_clockwise b)
  (rotate_board_counterclockwise res.1, res.2)

/-- The four move keys `w`, `a`, `s`, `d`. -/
inductive Move where
  | w | a | s | d
deriving DecidableEq

/-- Dispatch a move key to its move operation, as in the search loop. -/
def applyMove : Move → Board → Board × Bool
  | .w, b => up b
  | .a, b => left b
  | .s, b => down b
  | .d, b => right b

/-- `normalize(x)`: `x / 2048 if x else 0`. -/
def normalize (x : ℕ) : ℚ := if x ≠ 0 then (x : ℚ) / 2048 else 0

/-- The `left` comparand in `create_points`: `board[r][c-1] if c > 0 else 0`. -/
def nbLeft (b : Board) (r c : ℕ) : ℕ := if 0 < c then getC b r (c - 1) else 0

/-- The `right` comparand: `board[r][c+1] if c < 3 else 0`. -/
def nbRight (b : Board) (r c : ℕ) : ℕ := if c < 3 then getC b r (c + 1) else 0

/-- The comparand the source binds to its variable named `up`:
`board[r+1][c] if r < 3 else 0` — the cell in the row *below*. -/
def nbUp (b : Board) (r c : ℕ) : ℕ := if r < 3 then getC b (r + 1) c else 0

/-- The comparand the source binds to `down`: `board[r-1][c] if r < 3 else 0`.
At `r = 0` Python's `board[-1]` wraps around to the last row. -/
def nbDown (b : Board) (r c : ℕ) : ℕ :=
  if r < 3 then (if r = 0 then getC b 3 c else getC b (r - 1) c) else 0

/-- One cell of `create_points`: the source assigns under four sequential
`if` statements, each later assignment overriding the earlier ones, so the
final value is given by checking the four conditions in reverse order. -/
def cpCell (b : Board) (r c : ℕ) : ℚ :=
  let v := getC b r c
  let l := nbLeft b r c
  let rt := nbRight b r c
  let u := nbUp b r c
  let d := nbDown b r c
  if v ≠ 0 then
    if l < v ∧ rt > v ∧ u = v ∧ d = v then normalize (6 * v)
    else if l < v ∧ rt > v ∧ u ≤ v ∧ d ≥ v then normalize (3 * v)
    else if l < v ∧ rt > v then normalize (2 * v)
    else if l < v ∨ rt > v ∨ u ≤ v ∨ d ≥ v then normalize v
    else 0
  else 0

/-- The index list `range(4)` of the source's loops. -/
def idx4 : List ℕ := [0, 1, 2, 3]

/-- `create_points(board)`: the 4×4 matrix of per-cell weighted contributions. -/
def create_points (b : Board) : List (List ℚ) :=
  idx4.map fun r => idx4.map fun c => cpCell b r c

/-- Count the cells of the 4×4 grid holding value `v` (the zero and two
counts of `get_points`). -/
def countEq (b : Board) (v : ℕ) : ℕ :=
  (idx4.map fun r => (idx4.filter fun c => getC b r c = v).length).sum

/-- `get_points(board)`: sum each row of `create_points`, scale by
`(zeros + 0.01) / (twos + 0.01) / 10`, and add up. -/
def get_points (b : Board) : ℚ :=
  let z := countEq b 0
  let t := countEq b 2
  let scalar : ℚ := ((z : ℚ) + 1 / 100) / ((t : ℚ) + 1 / 100) / 10
  ((create_points b).map fun row => row.sum * scalar).sum

/-- The two result shapes of `evaluate_future_states`: a bare float at depth
0, a move-score mapping otherwise. -/
inductive EvalResult where
  | leaf (s : ℚ)
  | branch (m : List (Move × ℚ))
deriving DecidableEq

/-- Python's `max` over the listed values: fails (raises) on the empty list. -/
def maxList : List ℚ → Option ℚ
  | [] => none
  | x :: xs => some (xs.foldl max x)

/-- `max(result.values())` over a recursive move-score result, propagating
failure. -/
def contOf (r : Option (List (Move × ℚ))) : Option ℚ :=
  match r with
  | none => none
  | some m => maxList (m.map Prod.snd)

/-- One iteration of the move loop of `evaluate_future_states`: skip the
direction when its move reports no change, otherwise record
`get_points(moved) + continuation`, propagating failure. -/
def stepDir (cont : Board → Option ℚ) (b : Board)
    (acc : Option (List (Move × ℚ))) (mv : Move) : Option (List (Move × ℚ)) :=
  match acc with
  | none => none
  | some l =>
    let res := applyMove mv b
    if res.2 then
      match cont res.1 with
      | none => none
      | some c => some (l ++ [(mv, get_points res.1 + c)])
    else some l

/-- The insertion order of `possible_moves`. -/
def movesOrder : List Move := [.w, .a, .s, .d]

/-- The whole move loop of `evaluate_future_states` at depth ≥ 1. -/
def stepAll (cont : Board → Option ℚ) (b : Board) : Option (List (Move × ℚ)) :=
  movesOrder.foldl (stepDir cont b) (some [])

/-- The depth ≥ 1 body of `evaluate_future_states`, indexed by depth − 1:
at depth 1 the continuation is 0, at depth > 1 it is the max over the
recursive call's values. -/
def efsB : Nat → Board → Option (List (Move × ℚ))
  | 0, b => stepAll (fun _ => some 0) b
  | e + 1, b => stepAll (fun b2 => contOf (efsB e b2)) b

/-- `evaluate_future_states(board, depth)`: a bare score at depth 0, else the
move-score mapping; `none` models the `ValueError` of `max` on an empty
collection. -/
def evaluate_future_states (b : Board) (depth : Nat) : Option EvalResult :=
  if depth = 0 then some (.leaf (get_points b))
  else (efsB (depth - 1) b).map .branch

/-- The total of all tile values on the board. -/
def boardSum (b : Board) : ℕ := (b.map List.sum).sum

/-- The base-weight condition exactly as the specification words it (claim
C1): the cell strictly greater than its left neighbor, strictly greater than
its right neighbor, the up neighbor (the cell above, `(r-1,c)`) at most the
cell, or the down neighbor (the cell below, `(r+1,c)`) at least the cell;
off-board neighbors are 0. -/
def specBase (b : Board) (r c : ℕ) : Prop :=
  let v := getC b r c
  let l := if 0 < c then getC b r (c - 1) else 0
  let rt := if c < 3 then getC b r (c + 1) else 0
  let u := if 0 < r then getC b (r - 1) c else 0
  let d := if r < 3 then getC b (r + 1) c else 0
  v > l ∨ v > rt ∨ u ≤ v ∨ d ≥ v

instance (b : Board) (r c : ℕ) : Decidable (specBase b r c) := by
  unfold specBase; infer_instance

/-- The up comparand claim C2 mandates: the orthogonally adjacent cell
`(r-1,c)`, with an off-board neighbor treated as 0. -/
def nbUpSpec (b : Board) (r c : ℕ) : ℕ := if 0 < r then getC b (r - 1) c else 0

/-- The down comparand claim C2 mandates: the orthogonally adjacent cell
`(r+1,c)`, with an off-board neighbor treated as 0. -/
def nbDownSpec (b : Board) (r c : ℕ) : ℕ := if r < 3 then getC b (r + 1) c else 0

/-- The scoring cell with the source's comparison structure but the
neighbor positions claim C2 mandates (adjacent cells, off-board = 0),
for comparison against the source's `cpCell`. -/
def cpCellSpec (b : Board) (r c : ℕ) : ℚ :=
  let v := getC b r c
  let l := nbLeft b r c
  let rt := nbRight b r c
  let u := nbUpSpec b r c
  let d := nbDownSpec b r c
  if v ≠ 0 then
    if l < v ∧ rt > v ∧ u = v ∧ d = v then normalize (6 * v)
    else if l < v ∧ rt > v ∧ u ≤ v ∧ d ≥ v then normalize (3 * v)
    else if l < v ∧ rt > v then normalize (2 * v)
    else if l < v ∨ rt > v ∨ u ≤ v ∨ d ≥ v then normalize v
    else 0
  else 0

/-- The board holding a single 2048 tile at `(r, c)` and zeros elsewhere. -/
def oneTile (r c : ℕ) : Board :=
  idx4.map fun i => idx4.map fun j => if i = r ∧ j = c then 2048 else 0

/-- No two adjacent entries of the list are equal. -/
def noAdjRow : List ℕ → Bool
  | x :: y :: rest => x != y && noAdjRow (y :: rest)
  | _ => true

/-- Every cell of the board is non-zero. -/
def FullB (b : Board) : Prop := ∀ row ∈ b, ∀ x ∈ row, x ≠ 0

/-- No two adjacent equal values in any row or column (columns read off as
the rows of the clockwise rotation). -/
def NoAdjEq (b : Board) : Prop :=
  (∀ row ∈ b, noAdjRow row = true) ∧
  ∀ col ∈ rotate_board_clockwise b, noAdjRow col = true

instance (b : Board) : Decidable (FullB b) := by unfold FullB; infer_instance

instance (b : Board) : Decidable (NoAdjEq b) := by
  unfold NoAdjEq; infer_instance

/-- The shape of every `move_row_left` output: non-zero tiles first, then
zero padding. -/
def GoodShape (l : List ℕ) : Prop :=
  ∃ m k, l = m ++ List.replicate k 0 ∧ ∀ x ∈ m, x ≠ 0

/-- Some cell of the board satisfies `p`. -/
def HasP (p : ℕ → Prop) (b : Board) : Prop := ∃ row ∈ b, ∃ x ∈ row, p x

/-- The board holds at least one empty (zero) cell. -/
def HasZero (b : Board) : Prop := HasP (· = 0) b

/-- The board holds at least one tile (non-zero cell). -/
def HasNonzero (b : Board) : Prop := HasP (· ≠ 0) b

/-- A tile value legal on a 2048 board: zero or a power of two at least 2. -/
def isPowTile (x : ℕ) : Bool :=
  x == 0 || (List.range (x + 1)).any fun k => decide (1 ≤ k) && x == 2 ^ k

/-- Every entry of the board is 0 or a power of two at least 2. -/
def PowB (b : Board) : Prop := ∀ row ∈ b, ∀ x ∈ row, isPowTile x = true

instance (b : Board) : Decidable (PowB b) := by unfold PowB; infer_instance

/-- Counterexample board for claim C1; the witness cell is `(1,1)` = 4. -/
def Bc1 : Board := [[0, 2, 0, 0], [8, 4, 2, 0], [0, 8, 0, 0], [0, 0, 0, 0]]

/-- Failing input for claim C2; the witness cell is `(0,1)` = 4, whose
in-code `down` comparand wraps around to `board[3][1]`. -/
def Bc2 : Board := [[8, 4, 2, 0], [0, 8, 0, 0], [0, 0, 0, 0], [0, 2, 0, 0]]

/-- A full board with no two adjacent equal values in any row or column. -/
def BFull : Board := [[2, 4, 2, 4], [4, 2, 4, 2], [2, 4, 2, 4], [4, 2, 4, 2]]

/-- The all-zero board. -/
def Bzero : Board := [[0, 0, 0, 0], [0, 0, 0, 0], [0, 0, 0, 0], [0, 0, 0, 0]]

/-- A board whose first row is `[2,0,0,0]`, the rest zeros. -/
def Btwo : Board := [[2, 0, 0, 0], [0, 0, 0, 0], [0, 0, 0, 0], [0, 0, 0, 0]]

/-- A board whose first row is `[0,2,0,0]`, the rest zeros. -/
def Bmid : Board := [[0, 2, 0, 0], [0, 0, 0, 0], [0, 0, 0, 0], [0, 0, 0, 0]]

lemma list_map_eq_self {α : Type} (l : List α) (f : α → α) :
    l.map f = l ↔ ∀ x ∈ l, f x = x := by
  induction l with
  | nil => simp
  | cons x xs ih => simp [ih]

lemma len4_exists {α : Type} (l : List α) (h : l.length = 4) :
    ∃ x0 x1 x2 x3, l = [x0, x1, x2, x3] := by
  rcases l with _ | ⟨x0, l⟩; · simp at h
  rcases l with _ | ⟨x1, l⟩; · simp at h
  rcases l with _ | ⟨x2, l⟩; · simp at h
  rcases l with _ | ⟨x3, l⟩; · simp at h
  rcases l with _ | ⟨x4, l⟩
  · exact ⟨x0, x1, x2, x3, rfl⟩
  · simp at h

lemma board_cells (b : Board) (h : WF b) :
    ∃ a0 a1 a2 a3 b0 b1 b2 b3 c0 c1 c2 c3 d0 d1 d2 d3,
      b = [[a0, a1, a2, a3], [b0, b1, b2, b3],
           [c0, c1, c2, c3], [d0, d1, d2, d3]] := by
  obtain ⟨hlen, hrow⟩ := h
  obtain ⟨r0, r1, r2, r3, rfl⟩ := len4_exists b hlen
  obtain ⟨a0, a1, a2, a3, rfl⟩ := len4_exists r0 (hrow r0 (by simp))
  obtain ⟨b0, b1, b2, b3, rfl⟩ := len4_exists r1 (hrow r1 (by simp))
  obtain ⟨c0, c1, c2, c3, rfl⟩ := len4_exists r2 (hrow r2 (by simp))
  obtain ⟨d0, d1, d2, d3, rfl⟩ := len4_exists r3 (hrow r3 (by simp))
  exact ⟨a0, a1, a2, a3, b0, b1, b2, b3, c0, c1, c2, c3, d0, d1, d2, d3, rfl⟩

lemma getQ_create_points (b : Board) (r c : ℕ) (hr : r < 4) (hc : c < 4) :
    getQ (create_points b) r c = cpCell b r c := by
  interval_cases r <;> interval_cases c <;> rfl

lemma normalize_ne (x : ℕ) (hx : x ≠ 0) : normalize x ≠ 0 := by
  unfold normalize
  rw [if_pos hx]
  exact div_ne_zero (Nat.cast_ne_zero.mpr hx) (by norm_num)

lemma merge_pass_sum : ∀ l : List ℕ, (merge_pass l).sum = l.sum
  | [] => by simp [merge_pass]
  | [x] => by simp [merge_pass]
  | x :: y :: rest => by
    by_cases h : x = y
    · subst h
      simp [merge_pass, merge_pass_sum rest]
      ring
    · simp [merge_pass, h, merge_pass_sum (y :: rest)]

lemma sum_filter_ne_zero (l : List ℕ) : (l.filter (· ≠ 0)).sum = l.sum := by
  induction l with
  | nil => rfl
  | cons x xs ih =>
    rw [List.filter_cons]
    by_cases hx : x = 0
    · rw [if_neg (by simp [hx]), List.sum_cons, hx, Nat.zero_add]
      exact ih
    · rw [if_pos (by simp [hx]), List.sum_cons, List.sum_cons, ih]

lemma mrl_sum (row : List ℕ) : (move_row_left row).sum = row.sum := by
  unfold move_row_left
  rw [List.sum_append, merge_pass_sum, sum_filter_ne_zero]
  simp [List.sum_replicate]

lemma boardSum_map_mrl (b : Board) :
    boardSum (b.map move_row_left) = boardSum b := by
  unfold boardSum
  rw [List.map_map]
  induction b with
  | nil => rfl
  | cons r rs ih => simp [mrl_sum, ih]

lemma boardSum_reverseRows (b : Board) :
    boardSum (reverseRows b) = boardSum b := by
  unfold boardSum reverseRows
  rw [List.map_map]
  induction b with
  | nil => rfl
  | cons r rs ih => simp [ih, List.sum_reverse]

lemma boardSum_rotCW (b : Board) :
    boardSum (rotate_board_clockwise b) = boardSum b := by
  unfold rotate_board_clockwise
  split
  · simp [boardSum]; ring
  · rfl

lemma boardSum_rotCCW (b : Board) :
    boardSum (rotate_board_counterclockwise b) = boardSum b := by
  unfold rotate_board_counterclockwise
  split
  · simp [boardSum]; ring
  · rfl

/-- Claim C6: `left` returns true iff some row's result differs from that
row's input, a false report means the whole board is unchanged, and the
rows `[0,0,0,0]` and `[2,0,0,0]` report no change while `[0,2,0,0]` reports
a change and becomes `[2,0,0,0]`. -/
theorem moveLeft_report (b : Board) :
    ((left b).2 = true ↔ (left b).1 ≠ b) ∧
    ((left b).2 = false → (left b).1 = b) ∧
    (left Bzero).2 = false ∧ (left Btwo).2 = false ∧
    (left Bmid).2 = true ∧ (left Bmid).1 = Btwo := by
  have hiff : (left b).2 = true ↔ (left b).1 ≠ b := by
    simp only [left, List.any_eq_true, decide_eq_true_eq, ne_eq,
      list_map_eq_self]
    constructor
    · rintro ⟨x, hx, hne⟩ hall
      exact hne (hall x hx)
    · intro h
      by_contra hc
      push_neg at hc
      exact h hc
  refine ⟨hiff, ?_, by decide, by decide, by decide, by decide⟩
  intro hfalse
  by_contra hne
  have := hiff.mpr hne
  rw [hfalse] at this
  exact Bool.false_ne_true this

/-- Claim C7: the merge pass merges each adjacent equal pair exactly once,
left to right, and a merged tile is never merged again in the same pass:
`[x,x,x,x]` becomes `[x*2,x*2,0,0]`, in particular `[2,2,2,2]` becomes
`[4,4,0,0]` and never `[8,0,0,0]`. -/
theorem mergeOnce (x : ℕ) (hx : x ≠ 0) :
    move_row_left [x, x, x, x] = [x * 2, x * 2, 0, 0] ∧
    move_row_left [2, 2, 2, 2] = [4, 4, 0, 0] ∧
    move_row_left [2, 2, 2, 2] ≠ [8, 0, 0, 0] := by
  refine ⟨?_, by decide, by decide⟩
  simp [move_row_left, merge_pass, hx]

/-- Witness for `mergeOnce` at `x = 2`. -/
theorem mergeOnce_witness :
    (2 : ℕ) ≠ 0 ∧ move_row_left [2, 2, 2, 2] = [2 * 2, 2 * 2, 0, 0] :=
  ⟨by decide, (mergeOnce 2 (by decide)).1⟩

/-- Claim C8: clockwise and counterclockwise rotation are mutually inverse
on every 4×4 board. -/
theorem rotations_involutive (b : Board) (h : WF b) :
    rotate_board_clockwise (rotate_board_counterclockwise b) = b ∧
    rotate_board_counterclockwise (rotate_board_clockwise b) = b := by
  obtain ⟨a0, a1, a2, a3, b0, b1, b2, b3, c0, c1, c2, c3,
    d0, d1, d2, d3, rfl⟩ := board_cells b h
  exact ⟨rfl, rfl⟩

/-- Witness for `rotations_involutive` at a concrete board. -/
theorem rotations_involutive_witness :
    WF Bc1 ∧ (rotate_board_clockwise (rotate_board_counterclockwise Bc1) = Bc1 ∧
      rotate_board_counterclockwise (rotate_board_clockwise Bc1) = Bc1) :=
  ⟨by decide, rotations_involutive Bc1 (by decide)⟩

/-- Claim C9: on a board holding a single 2048 tile at any position (all
other cells zero), that tile's entry in the `create_points` matrix — its
normalized contribution before the global scalar — is exactly 1. -/
theorem heuristicNormalization (r c : ℕ) (hr : r < 4) (hc : c < 4) :
    getQ (create_points (oneTile r c)) r c = 1 := by
  rw [getQ_create_points _ _ _ hr hc]
  interval_cases r <;> interval_cases c <;>
    norm_num [cpCell, oneTile, idx4, normalize, nbLeft, nbRight, nbUp,
      nbDown, getC]

/-- Witness for `heuristicNormalization` at position `(0, 0)`. -/
theorem heuristicNormalization_witness :
    (0 : ℕ) < 4 ∧ getQ (create_points (oneTile 0 0)) 0 0 = 1 :=
  ⟨by decide, heuristicNormalization 0 0 (by decide) (by decide)⟩

/-- Claim C10: each of the four moves preserves the total of all tile
values: merging replaces two equal tiles by their double, and sliding,
reversal and rotation only reposition tiles. -/
theorem moves_preserve_sum (b : Board) (mv : Move) :
    boardSum (applyMove mv b).1 = boardSum b := by
  cases mv
  · show boardSum (rotate_board_clockwise
      ((rotate_board_counterclockwise b).map move_row_left)) = boardSum b
    rw [boardSum_rotCW, boardSum_map_mrl, boardSum_rotCCW]
  · exact boardSum_map_mrl b
  · show boardSum (rotate_board_counterclockwise
      ((rotate_board_clockwise b).map move_row_left)) = boardSum b
    rw [boardSum_rotCCW, boardSum_map_mrl, boardSum_rotCW]
  · show boardSum (reverseRows ((reverseRows b).map move_row_left)) = boardSum b
    rw [boardSum_reverseRows, boardSum_map_mrl, boardSum_reverseRows]

/-- Claim C1 counterexample: at cell `(1,1)` of `Bc1` (value 4, right
neighbor 2, up neighbor 2) the spec's base condition holds, yet the code
assigns contribution 0. -/
theorem c1_spec_counterexample :
    getC Bc1 1 1 ≠ 0 ∧ specBase Bc1 1 1 ∧ cpCell Bc1 1 1 = 0 :=
  ⟨by decide, by decide, by decide⟩

/-- Claim C1 amended: a non-empty cell receives a non-zero (at least
base-weight) contribution iff its left comparand is strictly below it, or
its right comparand strictly above it, or the code's `up` comparand (the
cell below, `(r+1,c)`, off-board 0) is at most it, or the code's `down`
comparand (`board[r-1][c]` guarded by `r < 3`, wrapping to row 3 at
`r = 0`) is at least it. -/
theorem c1_amended (b : Board) (r c : ℕ) (hv : getC b r c ≠ 0) :
    cpCell b r c ≠ 0 ↔
      (nbLeft b r c < getC b r c ∨ nbRight b r c > getC b r c ∨
       nbUp b r c ≤ getC b r c ∨ nbDown b r c ≥ getC b r c) := by
  have h6 : (6 : ℕ) * getC b r c ≠ 0 := mul_ne_zero (by norm_num) hv
  have h3 : (3 : ℕ) * getC b r c ≠ 0 := mul_ne_zero (by norm_num) hv
  have h2 : (2 : ℕ) * getC b r c ≠ 0 := mul_ne_zero (by norm_num) hv
  by_cases hA : nbLeft b r c < getC b r c ∧ getC b r c < nbRight b r c ∧
      nbUp b r c = getC b r c ∧ nbDown b r c = getC b r c
  · have he : cpCell b r c = normalize (6 * getC b r c) := by
      simp [cpCell, hv, hA]
    rw [he]
    exact iff_of_true (normalize_ne _ h6) (Or.inl hA.1)
  by_cases hB : nbLeft b r c < getC b r c ∧ getC b r c < nbRight b r c ∧
      nbUp b r c ≤ getC b r c ∧ getC b r c ≤ nbDown b r c
  · have hn6 : ¬(nbUp b r c = getC b r c ∧ nbDown b r c = getC b r c) :=
      fun h => hA ⟨hB.1, hB.2.1, h.1, h.2⟩
    have he : cpCell b r c = normalize (3 * getC b r c) := by
      simp [cpCell, hv, hB, hn6]
    rw [he]
    exact iff_of_true (normalize_ne _ h3) (Or.inl hB.1)
  by_cases hC : nbLeft b r c < getC b r c ∧ getC b r c < nbRight b r c
  · have hn6 : ¬(nbUp b r c = getC b r c ∧ nbDown b r c = getC b r c) :=
      fun h => hA ⟨hC.1, hC.2, h.1, h.2⟩
    have hn3 : ¬(nbUp b r c ≤ getC b r c ∧ getC b r c ≤ nbDown b r c) :=
      fun h => hB ⟨hC.1, hC.2, h.1, h.2⟩
    have he : cpCell b r c = normalize (2 * getC b r c) := by
      simp [cpCell, hv, hC, hn6, hn3]
    rw [he]
    exact iff_of_true (normalize_ne _ h2) (Or.inl hC.1)
  by_cases hD : nbLeft b r c < getC b r c ∨ getC b r c < nbRight b r c ∨
      nbUp b r c ≤ getC b r c ∨ getC b r c ≤ nbDown b r c
  · have hn6 : ¬(nbLeft b r c < getC b r c ∧ getC b r c < nbRight b r c ∧
        nbUp b r c = getC b r c ∧ nbDown b r c = getC b r c) :=
      fun h => hC ⟨h.1, h.2.1⟩
    have hn3 : ¬(nbLeft b r c < getC b r c ∧ getC b r c < nbRight b r c ∧
        nbUp b r c ≤ getC b r c ∧ getC b r c ≤ nbDown b r c) :=
      fun h => hC ⟨h.1, h.2.1⟩
    have he : cpCell b r c = normalize (getC b r c) := by
      simp [cpCell, hv, hn6, hn3, hC, hD]
    rw [he]
    exact iff_of_true (normalize_ne _ hv) hD
  · have hn6 : ¬(nbLeft b r c < getC b r c ∧ getC b r c < nbRight b r c ∧
        nbUp b r c = getC b r c ∧ nbDown b r c = getC b r c) :=
      fun h => hD (Or.inl h.1)
    have hn3 : ¬(nbLeft b r c < getC b r c ∧ getC b r c < nbRight b r c ∧
        nbUp b r c ≤ getC b r c ∧ getC b r c ≤ nbDown b r c) :=
      fun h => hD (Or.inl h.1)
    have hn2 : ¬(nbLeft b r c < getC b r c ∧ getC b r c < nbRight b r c) :=
      fun h => hD (Or.inl h.1)
    have he : cpCell b r c = 0 := by
      simp [cpCell, hv, hn6, hn3, hn2, hD]
    rw [he]
    exact iff_of_false (by simp) hD

/-- Witness for `c1_amended` at cell `(1,1)` of `Bc1`. -/
theorem c1_amended_witness :
    getC Bc1 1 1 ≠ 0 ∧
    (cpCell Bc1 1 1 ≠ 0 ↔
      (nbLeft Bc1 1 1 < getC Bc1 1 1 ∨ nbRight Bc1 1 1 > getC Bc1 1 1 ∨
       nbUp Bc1 1 1 ≤ getC Bc1 1 1 ∨ nbDown Bc1 1 1 ≥ getC Bc1 1 1)) :=
  ⟨by decide, c1_amended Bc1 1 1 (by decide)⟩

lemma mrl_fixed_of (x0 x1 x2 x3 : ℕ) (h0 : x0 ≠ 0) (h1 : x1 ≠ 0)
    (h2 : x2 ≠ 0) (h3 : x3 ≠ 0) (h01 : x0 ≠ x1) (h12 : x1 ≠ x2)
    (h23 : x2 ≠ x3) :
    move_row_left [x0, x1, x2, x3] = [x0, x1, x2, x3] := by
  simp [move_row_left, merge_pass, h0, h1, h2, h3, h01, h12, h23]

lemma stepAll_all_illegal (cont : Board → Option ℚ) (b : Board)
    (hw : (up b).2 = false) (ha : (left b).2 = false)
    (hs : (down b).2 = false) (hd : (right b).2 = false) :
    stepAll cont b = some [] := by
  simp [stepAll, movesOrder, stepDir, applyMove, hw, ha, hs, hd]

/-- Claim C2 divergence: at cell `(0,1)` of `Bc2` the code's scoring yields
0 because its `down` comparand wraps to `board[3][1]` and its `up`
comparand reads the row below, while the spec-mandated adjacent-or-zero
neighbors yield the base contribution `4/2048 = 1/512`. -/
theorem c2_code_divergence :
    getC Bc2 0 1 ≠ 0 ∧ cpCell Bc2 0 1 = 0 ∧ cpCellSpec Bc2 0 1 = 1 / 512 := by
  refine ⟨by decide, by decide, ?_⟩
  norm_num [cpCellSpec, nbUpSpec, nbDownSpec, nbLeft, nbRight, getC, Bc2,
    normalize]

/-- Claim C5 counterexample at depth 0: on the full board `BFull` with no
two adjacent equal values, `evaluate_future_states` at depth 0 returns a
bare leaf score, not an empty mapping. -/
theorem c5_depth0_counterexample :
    FullB BFull ∧ NoAdjEq BFull ∧
    evaluate_future_states BFull 0 = some (.leaf (get_points BFull)) ∧
    evaluate_future_states BFull 0 ≠ some (.branch []) := by
  refine ⟨by decide, by decide, rfl, ?_⟩
  simp [evaluate_future_states]

/-- Claim C5 amended: on a completely full 4×4 board with no two adjacent
equal values in any row or column, `evaluate_future_states` returns the
empty mapping at every depth at least 1 (at depth 0 it returns a bare leaf
score instead). -/
theorem c5_amended (b : Board) (hwf : WF b) (hfull : FullB b)
    (hnadj : NoAdjEq b) (d : ℕ) (hd : 1 ≤ d) :
    evaluate_future_states b d = some (.branch []) := by
  obtain ⟨a0, a1, a2, a3, b0, b1, b2, b3, c0, c1, c2, c3,
    d0, d1, d2, d3, rfl⟩ := board_cells b hwf
  simp only [FullB, List.forall_mem_cons, List.forall_mem_nil] at hfull
  obtain ⟨⟨f00, f01, f02, f03, -⟩, ⟨f10, f11, f12, f13, -⟩,
    ⟨f20, f21, f22, f23, -⟩, ⟨f30, f31, f32, f33, -⟩, -⟩ := hfull
  simp only [NoAdjEq, rotate_board_clockwise, List.forall_mem_cons,
    List.forall_mem_nil, noAdjRow, Bool.and_eq_true, bne_iff_ne] at hnadj
  obtain ⟨⟨⟨r00, r01, r02, -⟩, ⟨r10, r11, r12, -⟩, ⟨r20, r21, r22, -⟩,
    ⟨r30, r31, r32, -⟩, -⟩,
    ⟨⟨q00, q01, q02, -⟩, ⟨q10, q11, q12, -⟩, ⟨q20, q21, q22, -⟩,
    ⟨q30, q31, q32, -⟩, -⟩⟩ := hnadj
  have ea0 := mrl_fixed_of a0 a1 a2 a3 f00 f01 f02 f03 r00 r01 r02
  have ea1 := mrl_fixed_of b0 b1 b2 b3 f10 f11 f12 f13 r10 r11 r12
  have ea2 := mrl_fixed_of c0 c1 c2 c3 f20 f21 f22 f23 r20 r21 r22
  have ea3 := mrl_fixed_of d0 d1 d2 d3 f30 f31 f32 f33 r30 r31 r32
  have er0 := mrl_fixed_of a3 a2 a1 a0 f03 f02 f01 f00 r02.symm r01.symm r00.symm
  have er1 := mrl_fixed_of b3 b2 b1 b0 f13 f12 f11 f10 r12.symm r11.symm r10.symm
  have er2 := mrl_fixed_of c3 c2 c1 c0 f23 f22 f21 f20 r22.symm r21.symm r20.symm
  have er3 := mrl_fixed_of d3 d2 d1 d0 f33 f32 f31 f30 r32.symm r31.symm r30.symm
  have eu0 := mrl_fixed_of a3 b3 c3 d3 f03 f13 f23 f33 q32.symm q31.symm q30.symm
  have eu1 := mrl_fixed_of a2 b2 c2 d2 f02 f12 f22 f32 q22.symm q21.symm q20.symm
  have eu2 := mrl_fixed_of a1 b1 c1 d1 f01 f11 f21 f31 q12.symm q11.symm q10.symm
  have eu3 := mrl_fixed_of a0 b0 c0 d0 f00 f10 f20 f30 q02.symm q01.symm q00.symm
  have ed0 := mrl_fixed_of d0 c0 b0 a0 f30 f20 f10 f00 q00 q01 q02
  have ed1 := mrl_fixed_of d1 c1 b1 a1 f31 f21 f11 f01 q10 q11 q12
  have ed2 := mrl_fixed_of d2 c2 b2 a2 f32 f22 f12 f02 q20 q21 q22
  have ed3 := mrl_fixed_of d3 c3 b3 a3 f33 f23 f13 f03 q30 q31 q32
  have hfa : (left [[a0, a1, a2, a3], [b0, b1, b2, b3], [c0, c1, c2, c3],
      [d0, d1, d2, d3]]).2 = false := by
    simp [left, ea0, ea1, ea2, ea3]
  have hfd : (right [[a0, a1, a2, a3], [b0, b1, b2, b3], [c0, c1, c2, c3],
      [d0, d1, d2, d3]]).2 = false := by
    simp [right, left, reverseRows, er0, er1, er2, er3]
  have hfw : (up [[a0, a1, a2, a3], [b0, b1, b2, b3], [c0, c1, c2, c3],
      [d0, d1, d2, d3]]).2 = false := by
    simp [up, left, rotate_board_counterclockwise, eu0, eu1, eu2, eu3]
  have hfs : (down [[a0, a1, a2, a3], [b0, b1, b2, b3], [c0, c1, c2, c3],
      [d0, d1, d2, d3]]).2 = false := by
    simp [down, left, rotate_board_clockwise, ed0, ed1, ed2, ed3]
  obtain ⟨e, rfl⟩ : ∃ e, d = e + 1 := ⟨d - 1, by omega⟩
  unfold evaluate_future_states
  rw [if_neg (by omega)]
  have hstep : ∀ cont, stepAll cont [[a0, a1, a2, a3], [b0, b1, b2, b3],
      [c0, c1, c2, c3], [d0, d1, d2, d3]] = some [] :=
    fun cont => stepAll_all_illegal cont _ hfw hfa hfs hfd
  cases e
  · simp [efsB, hstep]
  · simp [efsB, hstep]

/-- Witness for `c5_amended` at board `BFull` and depth 1. -/
theorem c5_amended_witness :
    WF BFull ∧ FullB BFull ∧ NoAdjEq BFull ∧ (1 : ℕ) ≤ 1 ∧
    evaluate_future_states BFull 1 = some (.branch []) :=
  ⟨by decide, by decide, by decide, le_refl 1,
    c5_amended BFull (by decide) (by decide) (by decide) 1 (le_refl 1)⟩

lemma merge_pass_length_le : ∀ l : List ℕ, (merge_pass l).length ≤ l.length
  | [] => le_refl _
  | [_] => le_refl _
  | x :: y :: rest => by
    by_cases h : x = y
    · have := merge_pass_length_le rest
      simp only [merge_pass, if_pos h, List.length_cons]
      omega
    · have := merge_pass_length_le (y :: rest)
      simp only [merge_pass, if_neg h, List.length_cons] at this ⊢
      omega

lemma merge_pass_eq_of_length :
    ∀ l : List ℕ, (merge_pass l).length = l.length → merge_pass l = l
  | [], _ => rfl
  | [_], _ => rfl
  | x :: y :: rest, hlen => by
    by_cases h : x = y
    · exfalso
      have := merge_pass_length_le rest
      simp only [merge_pass, if_pos h, List.length_cons] at hlen
      omega
    · simp only [merge_pass, if_neg h, List.length_cons] at hlen ⊢
      rw [merge_pass_eq_of_length (y :: rest) (by simpa using hlen)]

lemma merge_pass_ne_nil : ∀ l : List ℕ, l ≠ [] → merge_pass l ≠ []
  | [], h => absurd rfl h
  | [x], _ => by simp [merge_pass]
  | x :: y :: rest, _ => by
    by_cases h : x = y <;> simp [merge_pass, h]

lemma merge_pass_pos :
    ∀ l : List ℕ, (∀ x ∈ l, x ≠ 0) → ∀ y ∈ merge_pass l, y ≠ 0
  | [], _, y, hy => by simp [merge_pass] at hy
  | [x], h, y, hy => by
    simp only [merge_pass, List.mem_singleton] at hy
    exact hy ▸ h x (by simp)
  | x :: y :: rest, h, z, hz => by
    by_cases hxy : x = y
    · simp only [merge_pass, if_pos hxy, List.mem_cons] at hz
      rcases hz with rfl | hz
      · have := h x (by simp)
        simp [this]
      · exact merge_pass_pos rest (fun a ha => h a (by simp [ha])) z hz
    · simp only [merge_pass, if_neg hxy, List.mem_cons] at hz
      rcases hz with rfl | hz
      · exact h z (by simp)
      · exact merge_pass_pos (y :: rest)
          (fun a ha => h a (List.mem_cons_of_mem x ha)) z hz

lemma filter_ne_zero_mem {l : List ℕ} {x : ℕ} (hx : x ∈ l.filter (· ≠ 0)) :
    x ≠ 0 := by
  have := List.of_mem_filter hx
  simpa using this

lemma mrl_length (row : List ℕ) (h : row.length = 4) :
    (move_row_left row).length = 4 := by
  unfold move_row_left
  have h1 : (merge_pass (row.filter (· ≠ 0))).length ≤ 4 :=
    le_trans (merge_pass_length_le _)
      (le_trans (List.length_filter_le _ row) (le_of_eq h))
  simp only [List.length_append, List.length_replicate]
  omega

lemma mrl_goodShape (row : List ℕ) : GoodShape (move_row_left row) :=
  ⟨merge_pass (row.filter (· ≠ 0)), 4 - (merge_pass (row.filter (· ≠ 0))).length,
    rfl, merge_pass_pos _ (fun _ hx => filter_ne_zero_mem hx)⟩

lemma goodShape_of_fixed (row : List ℕ) (h : move_row_left row = row) :
    GoodShape row := h ▸ mrl_goodShape row

lemma goodShape_both (l : List ℕ) (h1 : GoodShape l) (h2 : GoodShape l.reverse) :
    (∀ x ∈ l, x = 0) ∨ ∀ x ∈ l, x ≠ 0 := by
  obtain ⟨m, k, hl, hm⟩ := h1
  rcases m with _ | ⟨y, m'⟩
  · left
    intro x hx
    rw [hl] at hx
    exact (List.mem_replicate.mp (by simpa using hx)).2
  · rcases Nat.eq_zero_or_pos k with hk | hk
    · right
      subst hk
      simp only [List.replicate_zero, List.append_nil] at hl
      rw [hl]
      exact hm
    · exfalso
      obtain ⟨k2, rfl⟩ : ∃ k2, k = k2 + 1 := ⟨k - 1, by omega⟩
      have hrev : l.reverse =
          0 :: (List.replicate k2 0 ++ (y :: m').reverse) := by
        rw [hl, List.reverse_append, List.reverse_replicate]
        simp [List.replicate_succ]
      obtain ⟨m2, kk2, he, hm2⟩ := h2
      rcases m2 with _ | ⟨z, m2'⟩
      · have hy : y ∈ l.reverse := by
          rw [List.mem_reverse, hl]
          simp
        rw [he] at hy
        simp only [List.nil_append] at hy
        exact hm y (by simp) (List.mem_replicate.mp hy).2
      · have : (0 : ℕ) :: (List.replicate k2 0 ++ (y :: m').reverse) =
            z :: (m2' ++ List.replicate kk2 0) := by
          rw [← hrev, he]
          simp
        have hz0 : z = 0 := (List.cons.injEq _ _ _ _ ▸ this).1.symm
        exact hm2 z (by simp) hz0

lemma row_dichotomy (row : List ℕ) (h1 : move_row_left row = row)
    (h2 : move_row_left row.reverse = row.reverse) :
    (∀ x ∈ row, x = 0) ∨ ∀ x ∈ row, x ≠ 0 :=
  goodShape_both row (goodShape_of_fixed _ h1) (goodShape_of_fixed _ h2)

lemma mrl_changed (row : List ℕ) (hlen : row.length = 4)
    (hch : move_row_left row ≠ row) :
    (0 ∈ move_row_left row) ∧ ∃ x ∈ move_row_left row, x ≠ 0 := by
  have hle : (merge_pass (row.filter (· ≠ 0))).length ≤ 4 :=
    le_trans (merge_pass_length_le _)
      (le_trans (List.length_filter_le _ row) (le_of_eq hlen))
  constructor
  · by_cases hM4 : (merge_pass (row.filter (· ≠ 0))).length = 4
    · exfalso
      have hf4 : (row.filter (· ≠ 0)).length = 4 := by
        have h1 := merge_pass_length_le (row.filter (· ≠ 0))
        have h2 := List.length_filter_le (fun x => decide (x ≠ 0)) row
        omega
      have hfr : row.filter (· ≠ 0) = row :=
        (List.filter_sublist row).eq_of_length (by rw [hf4, hlen])
      have hmp : merge_pass (row.filter (· ≠ 0)) = row.filter (· ≠ 0) :=
        merge_pass_eq_of_length _ (by rw [hM4, hf4])
      apply hch
      unfold move_row_left
      rw [hmp, hfr, hlen]
      simp only [Nat.sub_self, List.replicate_zero, List.append_nil]
    · have hlt : (merge_pass (row.filter (· ≠ 0))).length < 4 :=
        lt_of_le_of_ne hle hM4
      show 0 ∈ move_row_left row
      unfold move_row_left
      refine List.mem_append_right _ ?_
      exact List.mem_replicate.mpr ⟨by omega, rfl⟩
  · by_cases hMnil : merge_pass (row.filter (· ≠ 0)) = []
    · exfalso
      have hfnil : row.filter (· ≠ 0) = [] := by
        by_contra hne
        exact merge_pass_ne_nil _ hne hMnil
      have hall : ∀ x ∈ row, x = 0 := by
        intro x hx
        have := List.filter_eq_nil_iff.mp hfnil x hx
        simpa using this
      have hrow : row = List.replicate 4 0 :=
        List.eq_replicate_iff.mpr ⟨hlen, hall⟩
      apply hch
      unfold move_row_left
      rw [hfnil, hrow]
      rfl
    · obtain ⟨y, hy⟩ := List.exists_mem_of_ne_nil _ hMnil
      refine ⟨y, ?_, merge_pass_pos _ (fun _ hx => filter_ne_zero_mem hx) y hy⟩
      show y ∈ move_row_left row
      unfold move_row_left
      exact List.mem_append_left _ hy

lemma WF_map_mrl (b : Board) (hwf : WF b) : WF (b.map move_row_left) := by
  refine ⟨by simp [hwf.1], ?_⟩
  intro row h
  rw [List.mem_map] at h
  obtain ⟨r, hr, rfl⟩ := h
  exact mrl_length r (hwf.2 r hr)

lemma WF_reverseRows (b : Board) (hwf : WF b) : WF (reverseRows b) := by
  refine ⟨by simp [reverseRows, hwf.1], ?_⟩
  intro row h
  rw [reverseRows, List.mem_map] at h
  obtain ⟨r, hr, rfl⟩ := h
  simp [hwf.2 r hr]

lemma WF_rotCW (b : Board) (hwf : WF b) : WF (rotate_board_clockwise b) := by
  obtain ⟨a0, a1, a2, a3, b0, b1, b2, b3, c0, c1, c2, c3,
    d0, d1, d2, d3, rfl⟩ := board_cells b hwf
  constructor
  · rfl
  · intro row h
    simp only [rotate_board_clockwise, List.mem_cons, List.not_mem_nil,
      or_false] at h
    rcases h with rfl | rfl | rfl | rfl <;> rfl

lemma WF_rotCCW (b : Board) (hwf : WF b) :
    WF (rotate_board_counterclockwise b) := by
  obtain ⟨a0, a1, a2, a3, b0, b1, b2, b3, c0, c1, c2, c3,
    d0, d1, d2, d3, rfl⟩ := board_cells b hwf
  constructor
  · rfl
  · intro row h
    simp only [rotate_board_counterclockwise, List.mem_cons,
      List.not_mem_nil, or_false] at h
    rcases h with rfl | rfl | rfl | rfl <;> rfl

lemma hasP_reverseRows (p : ℕ → Prop) (b : Board) :
    HasP p (reverseRows b) ↔ HasP p b := by
  unfold HasP reverseRows
  constructor
  · rintro ⟨row, hrow, x, hx, hp⟩
    rw [List.mem_map] at hrow
    obtain ⟨r, hr, rfl⟩ := hrow
    exact ⟨r, hr, x, List.mem_reverse.mp hx, hp⟩
  · rintro ⟨row, hrow, x, hx, hp⟩
    exact ⟨row.reverse, List.mem_map_of_mem _ hrow, x,
      List.mem_reverse.mpr hx, hp⟩

set_option maxHeartbeats 1000000 in
lemma hasP_rotCW (p : ℕ → Prop) (b : Board) (hwf : WF b) :
    HasP p (rotate_board_clockwise b) ↔ HasP p b := by
  obtain ⟨a0, a1, a2, a3, b0, b1, b2, b3, c0, c1, c2, c3,
    d0, d1, d2, d3, rfl⟩ := board_cells b hwf
  simp only [HasP, rotate_board_clockwise, List.mem_cons, List.not_mem_nil,
    or_false, List.mem_singleton, exists_eq_or_imp, exists_eq_left]
  tauto

set_option maxHeartbeats 1000000 in
lemma hasP_rotCCW (p : ℕ → Prop) (b : Board) (hwf : WF b) :
    HasP p (rotate_board_counterclockwise b) ↔ HasP p b := by
  obtain ⟨a0, a1, a2, a3, b0, b1, b2, b3, c0, c1, c2, c3,
    d0, d1, d2, d3, rfl⟩ := board_cells b hwf
  simp only [HasP, rotate_board_counterclockwise, List.mem_cons,
    List.not_mem_nil, or_false, List.mem_singleton, exists_eq_or_imp,
    exists_eq_left]
  tauto

lemma left_changed_has (b : Board) (hwf : WF b) (h : (left b).2 = true) :
    HasZero (left b).1 ∧ HasNonzero (left b).1 := by
  simp only [left, List.any_eq_true, decide_eq_true_eq] at h
  obtain ⟨row, hm, hch⟩ := h
  obtain ⟨hz, x, hx, hxne⟩ := mrl_changed row (hwf.2 row hm) hch
  exact ⟨⟨move_row_left row, List.mem_map_of_mem _ hm, 0, hz, rfl⟩,
    ⟨move_row_left row, List.mem_map_of_mem _ hm, x, hx, hxne⟩⟩

lemma changed_has (mv : Move) (b : Board) (hwf : WF b)
    (h : (applyMove mv b).2 = true) :
    HasZero (applyMove mv b).1 ∧ HasNonzero (applyMove mv b).1 ∧
      WF (applyMove mv b).1 := by
  cases mv
  · -- w: up
    have hwf1 := WF_rotCCW b hwf
    have h' : (left (rotate_board_counterclockwise b)).2 = true := h
    obtain ⟨hz, hnz⟩ := left_changed_has _ hwf1 h'
    have hwf2 := WF_map_mrl _ hwf1
    exact ⟨(hasP_rotCW _ _ hwf2).mpr hz, (hasP_rotCW _ _ hwf2).mpr hnz,
      WF_rotCW _ hwf2⟩
  · -- a: left
    obtain ⟨hz, hnz⟩ := left_changed_has b hwf h
    exact ⟨hz, hnz, WF_map_mrl b hwf⟩
  · -- s: down
    have hwf1 := WF_rotCW b hwf
    have h' : (left (rotate_board_clockwise b)).2 = true := h
    obtain ⟨hz, hnz⟩ := left_changed_has _ hwf1 h'
    have hwf2 := WF_map_mrl _ hwf1
    exact ⟨(hasP_rotCCW _ _ hwf2).mpr hz, (hasP_rotCCW _ _ hwf2).mpr hnz,
      WF_rotCCW _ hwf2⟩
  · -- d: right
    have h' : (left (reverseRows b)).2 = true := h
    obtain ⟨hz, hnz⟩ := left_changed_has _ (WF_reverseRows b hwf) h'
    have hwf2 := WF_map_mrl _ (WF_reverseRows b hwf)
    exact ⟨(hasP_reverseRows _ _).mpr hz, (hasP_reverseRows _ _).mpr hnz,
      WF_reverseRows _ hwf2⟩

lemma left_flag_false (b : Board) (h : (left b).2 = false) :
    ∀ row ∈ b, move_row_left row = row := by
  intro row hr
  by_contra hne
  have htrue : (left b).2 = true := by
    simp only [left, List.any_eq_true, decide_eq_true_eq]
    exact ⟨row, hr, hne⟩
  rw [h] at htrue
  exact Bool.false_ne_true htrue

lemma exists_legal (b : Board) (hwf : WF b) (hz : HasZero b)
    (hnz : HasNonzero b) : ∃ mv, (applyMove mv b).2 = true := by
  by_contra hall
  push_neg at hall
  have flagOf : ∀ mv : Move, (applyMove mv b).2 = false := by
    intro mv
    have := hall mv
    revert this
    cases (applyMove mv b).2 <;> simp
  have ha : (left b).2 = false := flagOf .a
  have hwmv : (left (rotate_board_counterclockwise b)).2 = false := flagOf .w
  have hsmv : (left (rotate_board_clockwise b)).2 = false := flagOf .s
  have hdmv : (left (reverseRows b)).2 = false := flagOf .d
  obtain ⟨a0, a1, a2, a3, b0, b1, b2, b3, c0, c1, c2, c3,
    d0, d1, d2, d3, rfl⟩ := board_cells b hwf
  have e1 : reverseRows [[a0, a1, a2, a3], [b0, b1, b2, b3],
      [c0, c1, c2, c3], [d0, d1, d2, d3]] =
      [[a3, a2, a1, a0], [b3, b2, b1, b0], [c3, c2, c1, c0],
       [d3, d2, d1, d0]] := rfl
  have e2 : rotate_board_counterclockwise [[a0, a1, a2, a3], [b0, b1, b2, b3],
      [c0, c1, c2, c3], [d0, d1, d2, d3]] =
      [[a3, b3, c3, d3], [a2, b2, c2, d2], [a1, b1, c1, d1],
       [a0, b0, c0, d0]] := rfl
  have e3 : rotate_board_clockwise [[a0, a1, a2, a3], [b0, b1, b2, b3],
      [c0, c1, c2, c3], [d0, d1, d2, d3]] =
      [[d0, c0, b0, a0], [d1, c1, b1, a1], [d2, c2, b2, a2],
       [d3, c3, b3, a3]] := rfl
  have F := left_flag_false _ ha
  have FR := left_flag_false _ hdmv
  rw [e1] at FR
  have FU := left_flag_false _ hwmv
  rw [e2] at FU
  have FD := left_flag_false _ hsmv
  rw [e3] at FD
  have R0 := row_dichotomy [a0, a1, a2, a3] (F _ (by simp)) (FR _ (by simp))
  have C0 := row_dichotomy [a0, b0, c0, d0] (FU _ (by simp)) (FD _ (by simp))
  have C1 := row_dichotomy [a1, b1, c1, d1] (FU _ (by simp)) (FD _ (by simp))
  have C2 := row_dichotomy [a2, b2, c2, d2] (FU _ (by simp)) (FD _ (by simp))
  have C3 := row_dichotomy [a3, b3, c3, d3] (FU _ (by simp)) (FD _ (by simp))
  simp only [List.forall_mem_cons] at R0 C0 C1 C2 C3
  simp only [HasZero, HasNonzero, HasP, List.mem_cons, List.not_mem_nil,
    or_false, List.mem_singleton, exists_eq_or_imp, exists_eq_left] at hz hnz
  rcases R0 with ⟨hz0, hz1, hz2, hz3, -⟩ | ⟨hn0, hn1, hn2, hn3, -⟩
  · rcases C0 with ⟨g00, g01, g02, g03, -⟩ | ⟨g0, -⟩
    swap
    · exact g0 hz0
    rcases C1 with ⟨g10, g11, g12, g13, -⟩ | ⟨g1, -⟩
    swap
    · exact g1 hz1
    rcases C2 with ⟨g20, g21, g22, g23, -⟩ | ⟨g2, -⟩
    swap
    · exact g2 hz2
    rcases C3 with ⟨g30, g31, g32, g33, -⟩ | ⟨g3, -⟩
    swap
    · exact g3 hz3
    subst g00 g01 g02 g03 g10 g11 g12 g13 g20 g21 g22 g23 g30 g31 g32 g33
    simp at hnz
  · rcases C0 with ⟨g0, -⟩ | ⟨g00, g01, g02, g03, -⟩
    · exact hn0 g0
    rcases C1 with ⟨g1, -⟩ | ⟨g10, g11, g12, g13, -⟩
    · exact hn1 g1
    rcases C2 with ⟨g2, -⟩ | ⟨g20, g21, g22, g23, -⟩
    · exact hn2 g2
    rcases C3 with ⟨g3, -⟩ | ⟨g30, g31, g32, g33, -⟩
    · exact hn3 g3
    rcases hz with (h | h | h | h) | (h | h | h | h) | (h | h | h | h) |
      (h | h | h | h) <;> omega

lemma maxList_of_ne_nil (l : List ℚ) (h : l ≠ []) :
    ∃ q, maxList l = some q := by
  cases l with
  | nil => exact absurd rfl h
  | cons x xs => exact ⟨xs.foldl max x, rfl⟩

lemma foldl_stepDir_char (cont : Board → Option ℚ) (b : Board) :
    ∀ (ms : List Move) (acc : List (Move × ℚ)),
      (∀ mv ∈ ms, (applyMove mv b).2 = true →
        ∃ c, cont (applyMove mv b).1 = some c) →
      ∃ t, ms.foldl (stepDir cont b) (some acc) = some (acc ++ t) ∧
        t.map Prod.fst = ms.filter (fun mv => (applyMove mv b).2) ∧
        ∀ mv q, (mv, q) ∈ t → (applyMove mv b).2 = true ∧
          ∃ c, cont (applyMove mv b).1 = some c ∧
            q = get_points (applyMove mv b).1 + c
  | [], acc, _ => ⟨[], by simp, by simp, by simp⟩
  | mv :: ms, acc, h => by
    by_cases hmv : (applyMove mv b).2 = true
    · obtain ⟨c, hc⟩ := h mv (by simp) hmv
      have hstep : stepDir cont b (some acc) mv =
          some (acc ++ [(mv, get_points (applyMove mv b).1 + c)]) := by
        simp [stepDir, hmv, hc]
      obtain ⟨t, ht, hmap, hval⟩ := foldl_stepDir_char cont b ms
        (acc ++ [(mv, get_points (applyMove mv b).1 + c)])
        (fun m hm => h m (List.mem_cons_of_mem mv hm))
      refine ⟨(mv, get_points (applyMove mv b).1 + c) :: t, ?_, ?_, ?_⟩
      · rw [List.foldl_cons, hstep, ht]
        simp
      · simp [hmap, List.filter_cons, hmv]
      · rintro m q hm
        rcases List.mem_cons.mp hm with heq | hmem
        · obtain ⟨rfl, rfl⟩ := Prod.mk.injEq .. |>.mp heq
          exact ⟨hmv, c, hc, rfl⟩
        · exact hval m q hmem
    · have hmv' : (applyMove mv b).2 = false := by
        revert hmv
        cases (applyMove mv b).2 <;> simp
      have hstep : stepDir cont b (some acc) mv = some acc := by
        simp [stepDir, hmv']
      obtain ⟨t, ht, hmap, hval⟩ := foldl_stepDir_char cont b ms acc
        (fun m hm => h m (List.mem_cons_of_mem mv hm))
      refine ⟨t, ?_, ?_, hval⟩
      · rw [List.foldl_cons, hstep]
        exact ht
      · simp [hmap, List.filter_cons, hmv']

lemma stepAll_char (cont : Board → Option ℚ) (b : Board)
    (hc : ∀ mv, (applyMove mv b).2 = true →
      ∃ c, cont (applyMove mv b).1 = some c) :
    ∃ t, stepAll cont b = some t ∧
      t.map Prod.fst = movesOrder.filter (fun mv => (applyMove mv b).2) ∧
      ∀ mv q, (mv, q) ∈ t → (applyMove mv b).2 = true ∧
        ∃ c, cont (applyMove mv b).1 = some c ∧
          q = get_points (applyMove mv b).1 + c := by
  obtain ⟨t, ht, hmap, hval⟩ := foldl_stepDir_char cont b movesOrder []
    (fun mv _ hl => hc mv hl)
  refine ⟨t, ?_, hmap, hval⟩
  show movesOrder.foldl (stepDir cont b) (some []) = some t
  simpa using ht

lemma move_mem_movesOrder (mv : Move) : mv ∈ movesOrder := by
  cases mv <;> simp [movesOrder]

lemma efsB_ok : ∀ (e : ℕ) (b : Board), WF b →
    ∃ t, efsB e b = some t ∧
      t.map Prod.fst = movesOrder.filter (fun mv => (applyMove mv b).2) ∧
      (HasZero b → HasNonzero b → t ≠ [])
  | 0, b, hwf => by
    obtain ⟨t, ht, hmap, -⟩ := stepAll_char (fun _ => some 0) b
      (fun mv _ => ⟨0, rfl⟩)
    refine ⟨t, ht, hmap, ?_⟩
    intro hz hnz h0
    obtain ⟨mv, hlegal⟩ := exists_legal b hwf hz hnz
    have : mv ∈ t.map Prod.fst := by
      rw [hmap]
      exact List.mem_filter.mpr ⟨move_mem_movesOrder mv, hlegal⟩
    rw [h0] at this
    simp at this
  | e + 1, b, hwf => by
    have hc : ∀ mv, (applyMove mv b).2 = true →
        ∃ c, contOf (efsB e (applyMove mv b).1) = some c := by
      intro mv hlegal
      obtain ⟨hz', hnz', hwf'⟩ := changed_has mv b hwf hlegal
      obtain ⟨t', ht', -, hne'⟩ := efsB_ok e (applyMove mv b).1 hwf'
      have htne : t'.map Prod.snd ≠ [] := by
        intro hnil
        exact hne' hz' hnz' (List.map_eq_nil_iff.mp hnil)
      obtain ⟨q, hq⟩ := maxList_of_ne_nil _ htne
      refine ⟨q, ?_⟩
      rw [ht']
      exact hq
    obtain ⟨t, ht, hmap, -⟩ :=
      stepAll_char (fun b2 => contOf (efsB e b2)) b hc
    refine ⟨t, ht, hmap, ?_⟩
    intro hz hnz h0
    obtain ⟨mv, hlegal⟩ := exists_legal b hwf hz hnz
    have : mv ∈ t.map Prod.fst := by
      rw [hmap]
      exact List.mem_filter.mpr ⟨move_mem_movesOrder mv, hlegal⟩
    rw [h0] at this
    simp at this

/-- Claim C3: on every well-formed board of power-of-two tiles and every
depth at least 1, the lookahead search never takes `max` of an empty
collection: the search returns an actual move-score mapping (no error),
and whenever the depth exceeds 1 and a direction's move reports a change,
the recursive search on the moved board returns a non-empty mapping. -/
theorem lookahead_no_error (b : Board) (hwf : WF b) (hpow : PowB b)
    (d : ℕ) (hd : 1 ≤ d) :
    (∃ t, evaluate_future_states b d = some (.branch t)) ∧
    ∀ mv : Move, 2 ≤ d → (applyMove mv b).2 = true →
      ∃ m, evaluate_future_states (applyMove mv b).1 (d - 1) =
        some (.branch m) ∧ m ≠ [] := by
  constructor
  · obtain ⟨t, ht, -, -⟩ := efsB_ok (d - 1) b hwf
    refine ⟨t, ?_⟩
    unfold evaluate_future_states
    rw [if_neg (by omega), ht]
    rfl
  · intro mv hd2 hlegal
    obtain ⟨hz', hnz', hwf'⟩ := changed_has mv b hwf hlegal
    obtain ⟨m, hm, -, hne⟩ := efsB_ok (d - 2) _ hwf'
    refine ⟨m, ?_, hne hz' hnz'⟩
    unfold evaluate_future_states
    rw [if_neg (by omega), show d - 1 - 1 = d - 2 from by omega, hm]
    rfl

/-- Witness for `lookahead_no_error` at board `Btwo` and depth 2. -/
theorem lookahead_no_error_witness :
    WF Btwo ∧ PowB Btwo ∧ (1 : ℕ) ≤ 2 ∧
    ((∃ t, evaluate_future_states Btwo 2 = some (.branch t)) ∧
     ∀ mv : Move, 2 ≤ 2 → (applyMove mv Btwo).2 = true →
       ∃ m, evaluate_future_states (applyMove mv Btwo).1 (2 - 1) =
         some (.branch m) ∧ m ≠ []) :=
  ⟨by decide, by decide, by omega,
    lookahead_no_error Btwo (by decide) (by decide) 2 (by omega)⟩

/-- Claim C4: at depth 0 the search returns exactly the bare heuristic
score with no recursion; at every depth at least 1 it returns a mapping
whose keys are exactly the directions whose move changes the board (in the
order w, a, s, d), each mapped to the heuristic of the moved board plus,
when depth exceeds 1, the maximum of the recursive search's values (and a
0 continuation at depth 1). -/
theorem lookahead_structure (b : Board) (hwf : WF b) (d : ℕ) (hd : 1 ≤ d) :
    evaluate_future_states b 0 = some (.leaf (get_points b)) ∧
    ∃ t, evaluate_future_states b d = some (.branch t) ∧
      t.map Prod.fst = movesOrder.filter (fun mv => (applyMove mv b).2) ∧
      ∀ mv q, (mv, q) ∈ t → (applyMove mv b).2 = true ∧
        (d = 1 → q = get_points (applyMove mv b).1) ∧
        (2 ≤ d → ∃ m c, evaluate_future_states (applyMove mv b).1 (d - 1) =
          some (.branch m) ∧ m ≠ [] ∧ maxList (m.map Prod.snd) = some c ∧
          q = get_points (applyMove mv b).1 + c) := by
  refine ⟨rfl, ?_⟩
  rcases Nat.lt_or_ge d 2 with hd1 | hd2
  · -- depth 1
    have hd1' : d = 1 := by omega
    subst hd1'
    obtain ⟨t, ht, hmap, hval⟩ := stepAll_char (fun _ => some 0) b
      (fun mv _ => ⟨0, rfl⟩)
    refine ⟨t, ?_, hmap, ?_⟩
    · unfold evaluate_future_states
      rw [if_neg (by omega)]
      show (efsB 0 b).map EvalResult.branch = _
      rw [show efsB 0 b = stepAll (fun _ => some 0) b from rfl, ht]
      rfl
    · intro mv q hmem
      obtain ⟨hlegal, c, hc, hq⟩ := hval mv q hmem
      have hc0 : c = 0 := by
        have := Option.some.injEq 0 c ▸ hc
        simpa using hc.symm
      refine ⟨hlegal, fun _ => ?_, fun h2 => by omega⟩
      rw [hq, hc0, add_zero]
  · -- depth ≥ 2
    have he : d - 1 = (d - 2) + 1 := by omega
    have hc : ∀ mv, (applyMove mv b).2 = true →
        ∃ c, contOf (efsB (d - 2) (applyMove mv b).1) = some c := by
      intro mv hlegal
      obtain ⟨hz', hnz', hwf'⟩ := changed_has mv b hwf hlegal
      obtain ⟨t', ht', -, hne'⟩ := efsB_ok (d - 2) (applyMove mv b).1 hwf'
      have htne : t'.map Prod.snd ≠ [] := by
        intro hnil
        exact hne' hz' hnz' (List.map_eq_nil_iff.mp hnil)
      obtain ⟨q, hq⟩ := maxList_of_ne_nil _ htne
      refine ⟨q, ?_⟩
      rw [ht']
      exact hq
    obtain ⟨t, ht, hmap, hval⟩ :=
      stepAll_char (fun b2 => contOf (efsB (d - 2) b2)) b hc
    refine ⟨t, ?_, hmap, ?_⟩
    · unfold evaluate_future_states
      rw [if_neg (by omega), he]
      show (stepAll (fun b2 => contOf (efsB (d - 2) b2)) b).map
        EvalResult.branch = _
      rw [ht]
      rfl
    · intro mv q hmem
      obtain ⟨hlegal, c, hc', hq⟩ := hval mv q hmem
      refine ⟨hlegal, fun h1 => by omega, fun _ => ?_⟩
      rcases hm : efsB (d - 2) (applyMove mv b).1 with _ | m
      · rw [hm] at hc'
        simp [contOf] at hc'
      · rw [hm] at hc'
        simp only [contOf] at hc'
        have hmne : m ≠ [] := by
          intro h0
          rw [h0] at hc'
          simp [maxList] at hc'
        refine ⟨m, c, ?_, hmne, hc', hq⟩
        unfold evaluate_future_states
        rw [if_neg (by omega), show d - 1 - 1 = d - 2 from by omega, hm]
        rfl

/-- Witness for `lookahead_structure` at board `Btwo` and depth 1. -/
theorem lookahead_structure_witness :
    WF Btwo ∧ (1 : ℕ) ≤ 1 ∧
    (evaluate_future_states Btwo 0 = some (.leaf (get_points Btwo)) ∧
     ∃ t, evaluate_future_states Btwo 1 = some (.branch t) ∧
       t.map Prod.fst = movesOrder.filter (fun mv => (applyMove mv Btwo).2) ∧
       ∀ mv q, (mv, q) ∈ t → (applyMove mv Btwo).2 = true ∧
         ((1 : ℕ) = 1 → q = get_points (applyMove mv Btwo).1) ∧
         (2 ≤ 1 → ∃ m c, evaluate_future_states (applyMove mv Btwo).1 (1 - 1) =
           some (.branch m) ∧ m ≠ [] ∧ maxList (m.map Prod.snd) = some c ∧
           q = get_points (applyMove mv Btwo).1 + c)) :=
  ⟨by decide, le_refl 1, lookahead_structure Btwo (by decide) 1 (le_refl 1)⟩

end Auto2048
